import Mathlib

/-!
Verification of the goru guest-side bridge (`src/language/python/stdlib.py` and
`src/sandbox/stdlib.py`): the blocking call primitive `_goru_call`, the batched
scheduler `_AsyncBatch`, the `WASIEventLoop` cooperative scheduler, and the
`_HTTPResponse` wrapper, shallowly embedded as executable Lean definitions.
-/

namespace Goru

open List

/-- JSON values, as decoded by `json.loads` and encoded by `json.dumps`. -/
inductive JVal where
  | null
  | bool (b : Bool)
  | num (n : Int)
  | str (s : String)
  | arr (elems : List JVal)
  | obj (fields : List (String × JVal))

/-- A decoded response line: a JSON object, i.e. a key/value association list
(keys are unique in a decoded Python dict; access is via `List.lookup`). -/
abbrev Resp := List (String × JVal)

mutual

/-- Model of `json.dumps` with the default separators `", "` and `": "`
(string escaping is simplified to plain quoting, which is exact for the
key/field names actually emitted by the bridge). -/
def dumps : JVal → String
  | .null => "null"
  | .bool true => "true"
  | .bool false => "false"
  | .num n => toString n
  | .str s => "\"" ++ s ++ "\""
  | .arr es => "[" ++ dumpsElems es ++ "]"
  | .obj fs => "\x7b" ++ dumpsFields fs ++ "\x7d"

/-- Comma-separated serialization of JSON array elements. -/
def dumpsElems : List JVal → String
  | [] => ""
  | [v] => dumps v
  | v :: vs => dumps v ++ ", " ++ dumpsElems vs

/-- Comma-separated serialization of JSON object fields. -/
def dumpsFields : List (String × JVal) → String
  | [] => ""
  | [(k, v)] => "\"" ++ k ++ "\": " ++ dumps v
  | (k, v) :: fs => "\"" ++ k ++ "\": " ++ dumps v ++ ", " ++ dumpsFields fs

end

/-- Outcome of a call observed by the guest: `.error e` models a raised
`RuntimeError(e)`, `.ok v` models a normal return of `resp.get("data")`
(`.ok none` is Python `None`, i.e. an absent `data` field). -/
abbrev CallOutcome := Except JVal (Option JVal)

namespace PyLang

/-- `_goru_call` from `src/language/python/stdlib.py` (lines 8-15): emits the
sentinel-wrapped frame for `{"fn": fn, "args": args}` and, on the decoded
response line `resp`, raises `RuntimeError(resp["error"])` when the `error`
key is present, otherwise returns `resp.get("data")`.  The result pairs the
emitted frame with the outcome. -/
def goru_call (fn : String) (args : JVal) (resp : Resp) : String × CallOutcome :=
  ("\x00GORU:" ++ dumps (.obj [("fn", .str fn), ("args", args)]) ++ "\x00",
   match resp.lookup "error" with
   | some e => .error e
   | none => .ok (resp.lookup "data"))

end PyLang

namespace PySandbox

/-- `_goru_call` from `src/sandbox/stdlib.py` (lines 3-9), transcribed from
that file: same frame, same error test, same return. -/
def goru_call (fn : String) (args : JVal) (resp : Resp) : String × CallOutcome :=
  ("\x00GORU:" ++ dumps (.obj [("fn", .str fn), ("args", args)]) ++ "\x00",
   match resp.lookup "error" with
   | some e => .error e
   | none => .ok (resp.lookup "data"))

end PySandbox

/-- `_HTTPResponse` from `src/language/python/stdlib.py` (lines 167-182). -/
structure HTTPResponse where
  data : Resp
  status_code : JVal
  text : JVal

/-- The `_HTTPResponse.__init__` constructor: `status_code = data.get("status", 0)`
and `text = data.get("body", "")`. -/
def HTTPResponse.ofData (data : Resp) : HTTPResponse :=
  { data := data
    status_code := (data.lookup "status").getD (.num 0)
    text := (data.lookup "body").getD (.str "") }

/-- The `ok` property: `200 <= self.status_code < 300`.  `none` models the
Python `TypeError` raised when the stored status is not a number. -/
def HTTPResponse.ok (r : HTTPResponse) : Option Bool :=
  match r.status_code with
  | .num n => some (decide (200 ≤ n ∧ n < 300))
  | _ => none

/-- The resolution written into a pending future by `flush`:
`future.set_exception(RuntimeError(resp["error"]))` or
`future.set_result(resp.get("data"))`. -/
abbrev FutRes := Except JVal (Option JVal)

/-- `_AsyncBatch` state (`src/language/python/stdlib.py` lines 21-34): the
insertion-ordered dict `pending` from correlation id to future (futures are
opaque tokens here) and the counter `next_id`. -/
structure AsyncBatch where
  pending : List (String × Nat)
  next_id : Nat

/-- The module-level singleton `_batch = _AsyncBatch()`. -/
def AsyncBatch.init : AsyncBatch := { pending := [], next_id := 0 }

/-- Python dict assignment `d[k] = v`: replace in place when the key is
already present, else append (insertion order preserved). -/
def dictInsert (d : List (String × Nat)) (k : String) (v : Nat) : List (String × Nat) :=
  if d.any (fun p => p.1 == k) then d.map (fun p => if p.1 == k then (k, v) else p)
  else d ++ [(k, v)]

/-- Python `d.pop(k)` on a dict: remove the entry with key `k`. -/
def dictPop (d : List (String × Nat)) (k : String) : List (String × Nat) :=
  d.eraseP (fun p => p.1 == k)

/-- `_AsyncBatch.queue`: assign `req_id = str(self.next_id)`, increment the
counter, record the pending entry, and emit the request frame.  Returns the
new state, the emitted frame, and the returned `req_id`. -/
def AsyncBatch.queue (b : AsyncBatch) (fn : String) (args : JVal) (future : Nat) :
    AsyncBatch × String × String :=
  let req_id := toString b.next_id
  ({ pending := dictInsert b.pending req_id future, next_id := b.next_id + 1 },
   "\x00GORU:" ++ dumps (.obj [("id", .str req_id), ("fn", .str fn), ("args", args)]) ++ "\x00",
   req_id)

/-- `resp.get("id")` as used for the pending-dict membership test: only a
string id can ever match a pending key (all pending keys are strings). -/
def respId (resp : Resp) : Option String :=
  match resp.lookup "id" with
  | some (.str s) => some s
  | _ => none

/-- Resolution computed for one matched response line inside `flush`. -/
def respResult (resp : Resp) : FutRes :=
  match resp.lookup "error" with
  | some e => .error e
  | none => .ok (resp.lookup "data")

/-- The read loop of `flush`: process the given response lines in order; a
line whose id matches a pending entry pops that entry and resolves its
future, any other line is silently dropped.  Returns the remaining pending
dict and the resolutions in arrival order. -/
def flushLoop : List (String × Nat) → List Resp → List (String × Nat) × List (Nat × FutRes)
  | pend, [] => (pend, [])
  | pend, resp :: rest =>
    match respId resp with
    | none => flushLoop pend rest
    | some rid =>
      match pend.lookup rid with
      | none => flushLoop pend rest
      | some fut =>
        let out := flushLoop (dictPop pend rid) rest
        (out.1, (fut, respResult resp) :: out.2)

/-- Everything one `flush` call does. -/
structure FlushResult where
  state : AsyncBatch
  emitted : List String
  linesRead : Nat
  resolutions : List (Nat × FutRes)

/-- `_AsyncBatch.flush` (lines 36-52): no-op when nothing is pending;
otherwise emit the `GORU_FLUSH` marker carrying the pending count and read
exactly that many lines from the inbound stream `input`.  `none` models the
`EOFError` raised when the stream holds fewer lines than announced. -/
def AsyncBatch.flush (b : AsyncBatch) (input : List Resp) : Option FlushResult :=
  if b.pending.isEmpty then some ⟨b, [], 0, []⟩
  else
    let count := b.pending.length
    if input.length < count then none
    else
      let out := flushLoop b.pending (input.take count)
      some ⟨{ pending := out.1, next_id := b.next_id },
            ["\x00GORU_FLUSH:" ++ toString count ++ "\x00"], count, out.2⟩

/-- The future token `flush` would resolve for response line `r` (the pending
lookup of the line's id; the default is never reached on matched lines). -/
def futFor (pend : List (String × Nat)) (r : Resp) : Nat :=
  match respId r with
  | some k => (pend.lookup k).getD 0
  | none => 0

/-- A scenario state: three calls enqueued on a fresh batch scheduler,
receiving ids "0", "1", "2" and futures 100, 101, 102. -/
def batch3 : AsyncBatch :=
  ((((AsyncBatch.init.queue "kv_get" (.obj [("key", .str "a")]) 100).1.queue
      "kv_get" (.obj [("key", .str "b")]) 101).1.queue
      "kv_get" (.obj [("key", .str "c")]) 102).1)

/-- A scenario inbound stream: the host answers in order "2", "0", "1". -/
def input3 : List Resp :=
  [[("id", .str "2"), ("data", .num 30)],
   [("id", .str "0"), ("data", .num 10)],
   [("id", .str "1"), ("data", .num 20)]]

/-- One host-visible operation on the batch scheduler singleton: `enq` is
`_async_call` calling `_batch.queue` with a fresh future token, `fl` is the
event loop calling `_batch.flush` against the given inbound lines. -/
inductive BOp where
  | enq (fn : String) (args : JVal) (future : Nat)
  | fl (input : List Resp)

/-- Batch scheduler state plus the ghost count of request frames issued since
the last successful flush (one that left nothing pending). -/
structure TraceState where
  batch : AsyncBatch
  framesSinceFlush : Nat

/-- The initial trace state: a fresh `_AsyncBatch()`, no frames issued. -/
def initTS : TraceState := { batch := AsyncBatch.init, framesSinceFlush := 0 }

/-- Apply one operation to the trace state.  A flush that leaves nothing
pending resets the ghost frame counter; a flush that dies on EOF leaves the
state unchanged. -/
def stepOp (s : TraceState) (op : BOp) : TraceState :=
  match op with
  | .enq fn args fut =>
    { batch := (s.batch.queue fn args fut).1, framesSinceFlush := s.framesSinceFlush + 1 }
  | .fl input =>
    match s.batch.flush input with
    | none => s
    | some res =>
      { batch := res.state,
        framesSinceFlush := if res.state.pending.isEmpty then 0 else s.framesSinceFlush }

/-- Run a trace from a state. -/
def runTrace (s : TraceState) : List BOp → TraceState
  | [] => s
  | op :: ops => runTrace (stepOp s op) ops

/-- A trace is complete when every flush is offered exactly the pending count
of lines whose ids are a permutation of the pending keys — the well-behaved
host of the protocol contract. -/
def CompleteTrace : TraceState → List BOp → Prop
  | _, [] => True
  | s, op :: ops =>
    (match op with
     | .enq _ _ _ => True
     | .fl input => input.length = s.batch.pending.length ∧
         input.map respId ~ s.batch.pending.map (fun p => some p.1)) ∧
    CompleteTrace (stepOp s op) ops

/-- The number of `enq` operations in a trace. -/
def countEnq : List BOp → Nat
  | [] => 0
  | .enq _ _ _ :: ops => countEnq ops + 1
  | .fl _ :: ops => countEnq ops

/-- The correlation ids returned by the `enq` operations of a trace, in issue
order. -/
def assignedIds (s : TraceState) : List BOp → List String
  | [] => []
  | .enq fn args fut :: ops =>
    (s.batch.queue fn args fut).2.2 :: assignedIds (stepOp s (.enq fn args fut)) ops
  | .fl input :: ops => assignedIds (stepOp s (.fl input)) ops

/-- Every pending key is the decimal rendering of a natural below `next_id`. -/
def KeysBounded (b : AsyncBatch) : Prop :=
  ∀ k ∈ b.pending.map Prod.fst, ∃ i, i < b.next_id ∧ k = Nat.repr i

/-! ### The WASI event loop -/

/-- Ghost events recorded while the loop runs: a ready callback ran, or
`_batch.flush` read a count of responses. -/
inductive Ev where
  | ran (id : Nat)
  | flushed (count : Nat)
deriving Repr, DecidableEq

/-- A ready callback (an `asyncio.Handle` in `_ready`): its id, its cancelled
flag, the batched calls its `_run` issues, the completion it may give the
top-level future, and the callbacks it schedules via `call_soon`. -/
inductive Cb where
  | mk (id : Nat) (cancelled : Bool) (enqs : List (String × JVal × Nat))
      (completes : Option FutRes) (schedules : List Cb)

/-- The callback's id. -/
def Cb.id : Cb → Nat
  | .mk i _ _ _ _ => i

/-- The callback's cancelled flag (`handle._cancelled`). -/
def Cb.cancelled : Cb → Bool
  | .mk _ c _ _ _ => c

/-- The batched calls the callback issues. -/
def Cb.enqs : Cb → List (String × JVal × Nat)
  | .mk _ _ e _ _ => e

/-- The completion the callback gives the top-level future, if any. -/
def Cb.completes : Cb → Option FutRes
  | .mk _ _ _ d _ => d

/-- The callbacks the callback schedules via `call_soon`. -/
def Cb.schedules : Cb → List Cb
  | .mk _ _ _ _ s => s

/-- State of `WASIEventLoop.run_until_complete`: the `_ready` deque between
drain passes, the batch singleton, the unread inbound stream, all protocol
messages written, the futures' waiting callbacks, the top-level future's
result slot, and the ghost event log. -/
structure EvState where
  ready : List Cb
  batch : AsyncBatch
  input : List Resp
  emitted : List String
  waiters : List (Nat × Cb)
  done : Option FutRes
  log : List Ev

/-- Issue the callback's batched calls through `_batch.queue`, in order. -/
def applyEnqs (s : EvState) : List (String × JVal × Nat) → EvState
  | [] => s
  | (fn, args, fut) :: rest =>
    applyEnqs { s with batch := (s.batch.queue fn args fut).1,
                       emitted := s.emitted ++ [(s.batch.queue fn args fut).2.1] } rest

/-- Run one ready callback (`handle._run()`): log it, issue its batched
calls, and complete the top-level future if the callback does (the first
completion wins). -/
def applyCb (c : Cb) (s : EvState) : EvState :=
  let s₁ := applyEnqs { s with log := s.log ++ [.ran c.id] } c.enqs
  { s₁ with done := s₁.done <|> c.completes }

/-- `WASIEventLoop._run_once`: pop handles from the left of `_ready` until it
is empty, running each non-cancelled one; callbacks scheduled during the pass
are appended on the right and run in the same pass.  Fueled; `none` means the
fuel ran out before the deque emptied. -/
def runOnceF : Nat → List Cb → EvState → Option EvState
  | _, [], s => some s
  | 0, _ :: _, _ => none
  | fuel + 1, c :: rest, s =>
    if c.cancelled then runOnceF fuel rest s
    else runOnceF fuel (rest ++ c.schedules) (applyCb c s)

/-- The order in which a drain pass runs callback ids: determined by the
deque alone (FIFO with scheduled callbacks appended on the right). -/
def drainOrder : Nat → List Cb → Option (List Nat)
  | _, [] => some []
  | 0, _ :: _ => none
  | fuel + 1, c :: rest =>
    if c.cancelled then drainOrder fuel rest
    else (drainOrder fuel (rest ++ c.schedules)).map (fun l => c.id :: l)

/-- Resolving futures schedules their waiting callbacks (`call_soon`), in
resolution order. -/
def scheduleWaiters (s : EvState) : List (Nat × FutRes) → EvState
  | [] => s
  | (fut, _) :: rest =>
    scheduleWaiters
      { s with ready := s.ready ++ ((s.waiters.filter (fun p => p.1 == fut)).map Prod.snd),
               waiters := s.waiters.filter (fun p => p.1 != fut) } rest

/-- The `_batch.flush()` step between drain passes: run the flush against the
inbound stream, consume the lines it read, record its output, and make the
callbacks waiting on resolved futures ready. `none` models the EOFError of a
starved flush. -/
def flushStep (s : EvState) : Option EvState :=
  match s.batch.flush s.input with
  | none => none
  | some res =>
    some (scheduleWaiters
      { s with batch := res.state,
               input := s.input.drop res.linesRead,
               emitted := s.emitted ++ res.emitted,
               log := s.log ++ (if res.linesRead = 0 then [] else [Ev.flushed res.linesRead]) }
      res.resolutions)

/-- `WASIEventLoop.run_until_complete`: while the top-level future is not
done, drain the ready deque, then call `_batch.flush()` — the only suspension
point — and loop; once done, return the future's result (its value, or its
failure to be raised). Fueled in the number of rounds (outer) and the drain
length (inner). -/
def run_until_complete (innerFuel : Nat) : Nat → EvState → Option (FutRes × EvState)
  | 0, _ => none
  | fuel + 1, s =>
    match s.done with
    | some r => some (r, s)
    | none =>
      match runOnceF innerFuel s.ready { s with ready := [] } with
      | none => none
      | some s₁ =>
        match flushStep s₁ with
        | none => none
        | some s₂ => run_until_complete innerFuel fuel s₂

/-- A callback that completes the top-level future with the value 42. -/
def cbDone : Cb := .mk 0 false [] (some (.ok (some (.num 42)))) []

/-- A loop state about to run `cbDone`. -/
def evs0 : EvState :=
  { ready := [cbDone], batch := AsyncBatch.init, input := [], emitted := [],
    waiters := [], done := none, log := [] }

/-- A loop state whose top-level future is already done. -/
def evs1 : EvState :=
  { ready := [], batch := AsyncBatch.init, input := [], emitted := [],
    waiters := [], done := some (.ok none), log := [] }

/-! ### Association-list facts about the pending dict -/

/-- Looking up the key of the head entry. -/
theorem lookup_cons_hit (l : List (String × Nat)) (k : String) (v : Nat) :
    ((k, v) :: l).lookup k = some v := by simp [List.lookup]

/-- Looking up past a non-matching head entry. -/
theorem lookup_cons_miss (l : List (String × Nat)) {a k : String} (v : Nat) (h : ¬k = a) :
    ((a, v) :: l).lookup k = l.lookup k := by
  have hb : (k == a) = false := beq_eq_false_iff_ne.mpr h
  simp [List.lookup, hb]

/-- `dictPop` removes a matching head entry. -/
theorem dictPop_cons_hit (l : List (String × Nat)) {a k : String} (b : Nat) (h : a = k) :
    dictPop ((a, b) :: l) k = l := by
  subst h; simp [dictPop, List.eraseP_cons]

/-- `dictPop` passes over a non-matching head entry. -/
theorem dictPop_cons_miss (l : List (String × Nat)) {a k : String} (b : Nat) (h : ¬a = k) :
    dictPop ((a, b) :: l) k = (a, b) :: dictPop l k := by
  have hb : (a == k) = false := beq_eq_false_iff_ne.mpr h
  simp [dictPop, List.eraseP_cons, hb]

/-- A key's lookup succeeds exactly when the key occurs in the dict. -/
theorem lookup_isSome_iff (l : List (String × Nat)) (k : String) :
    (l.lookup k).isSome ↔ k ∈ l.map Prod.fst := by
  induction l with
  | nil => simp [List.lookup]
  | cons p l ih =>
    obtain ⟨a, v⟩ := p
    by_cases h : k = a
    · subst h; simp [lookup_cons_hit]
    · rw [lookup_cons_miss l v h]
      simp [ih, h]

/-- A successful lookup exhibits a member of the dict. -/
theorem lookup_mem {l : List (String × Nat)} {k : String} {v : Nat}
    (h : l.lookup k = some v) : (k, v) ∈ l := by
  induction l with
  | nil => simp [List.lookup] at h
  | cons p l ih =>
    obtain ⟨a, b⟩ := p
    by_cases hk : k = a
    · subst hk
      rw [lookup_cons_hit] at h
      obtain rfl : b = v := Option.some.inj h
      exact List.mem_cons_self _ _
    · rw [lookup_cons_miss l b hk] at h
      exact List.mem_cons_of_mem _ (ih h)

/-- With distinct keys, membership determines the lookup. -/
theorem mem_lookup_of_nodup {l : List (String × Nat)} (hnd : (l.map Prod.fst).Nodup)
    {k : String} {v : Nat} (h : (k, v) ∈ l) : l.lookup k = some v := by
  induction l with
  | nil => simp at h
  | cons p l ih =>
    obtain ⟨a, b⟩ := p
    simp only [List.map_cons, List.nodup_cons] at hnd
    rcases List.mem_cons.mp h with h1 | h1
    · obtain ⟨rfl, rfl⟩ := Prod.mk.injEq .. ▸ h1
      exact lookup_cons_hit l k v
    · by_cases hk : k = a
      · subst hk
        exact absurd (List.mem_map_of_mem Prod.fst h1) hnd.1
      · rw [lookup_cons_miss l b hk]
        exact ih hnd.2 h1

/-- Popping one key leaves every other key's lookup unchanged. -/
theorem lookup_dictPop_ne (l : List (String × Nat)) (k k' : String) (h : k' ≠ k) :
    (dictPop l k).lookup k' = l.lookup k' := by
  induction l with
  | nil => rfl
  | cons p l ih =>
    obtain ⟨a, b⟩ := p
    by_cases ha : a = k
    · rw [dictPop_cons_hit l b ha, lookup_cons_miss l b (ha ▸ h)]
    · rw [dictPop_cons_miss l b ha]
      by_cases hk : k' = a
      · subst hk; rw [lookup_cons_hit, lookup_cons_hit]
      · rw [lookup_cons_miss _ b hk, lookup_cons_miss l b hk, ih]

/-- A dict with a found entry is a permutation of that entry consed onto the
dict with the entry popped. -/
theorem perm_cons_dictPop {l : List (String × Nat)} {k : String} {v : Nat}
    (h : l.lookup k = some v) : l ~ (k, v) :: dictPop l k := by
  induction l with
  | nil => simp [List.lookup] at h
  | cons p l ih =>
    obtain ⟨a, b⟩ := p
    by_cases ha : k = a
    · subst ha
      rw [lookup_cons_hit] at h
      obtain rfl : b = v := Option.some.inj h
      rw [dictPop_cons_hit l _ rfl]
    · rw [lookup_cons_miss l b ha] at h
      rw [dictPop_cons_miss l b (fun hh => ha hh.symm)]
      exact ((ih h).cons (a, b)).trans (List.Perm.swap (k, v) (a, b) _)

/-! ### The flush read loop -/

/-- `flushLoop` on an exhausted line budget. -/
theorem flushLoop_nil (pend : List (String × Nat)) : flushLoop pend [] = (pend, []) := rfl

/-- A line with no usable id is dropped. -/
theorem flushLoop_cons_noid {pend : List (String × Nat)} {resp : Resp} {rest : List Resp}
    (h : respId resp = none) : flushLoop pend (resp :: rest) = flushLoop pend rest := by
  simp [flushLoop, h]

/-- A line whose id is not pending is dropped. -/
theorem flushLoop_cons_unknown {pend : List (String × Nat)} {resp : Resp} {rest : List Resp}
    {rid : String} (h : respId resp = some rid) (h2 : pend.lookup rid = none) :
    flushLoop pend (resp :: rest) = flushLoop pend rest := by
  simp [flushLoop, h, h2]

/-- A line whose id is pending pops the entry and resolves its future. -/
theorem flushLoop_cons_match {pend : List (String × Nat)} {resp : Resp} {rest : List Resp}
    {rid : String} {fut : Nat} (h : respId resp = some rid) (h2 : pend.lookup rid = some fut) :
    flushLoop pend (resp :: rest) =
      ((flushLoop (dictPop pend rid) rest).1,
       (fut, respResult resp) :: (flushLoop (dictPop pend rid) rest).2) := by
  simp [flushLoop, h, h2]

/-- When the incoming ids are exactly a permutation of the pending keys, the
read loop empties the pending dict and resolves, in arrival order, each line's
future with that line's result. -/
theorem flushLoop_complete : ∀ (input : List Resp) (pend : List (String × Nat)),
    (pend.map Prod.fst).Nodup →
    input.map respId ~ pend.map (fun p => some p.1) →
    flushLoop pend input = ([], input.map fun r => (futFor pend r, respResult r)) := by
  intro input
  induction input with
  | nil =>
    intro pend _ hperm
    have hmapnil : pend.map (fun p => some p.1) = [] := hperm.symm.eq_nil
    have hp : pend = [] := by
      cases pend with
      | nil => rfl
      | cons q l => simp at hmapnil
    subst hp; rfl
  | cons r rest ih =>
    intro pend hnd hperm
    rw [List.map_cons] at hperm
    have hmem : respId r ∈ pend.map (fun p => some p.1) :=
      hperm.mem_iff.mp (List.mem_cons_self _ _)
    obtain ⟨p0, hp0, hid⟩ := List.mem_map.mp hmem
    have hid' : respId r = some p0.1 := hid.symm
    have hksome : (pend.lookup p0.1).isSome :=
      (lookup_isSome_iff pend p0.1).mpr (List.mem_map_of_mem Prod.fst hp0)
    obtain ⟨v, hv⟩ := Option.isSome_iff_exists.mp hksome
    rw [flushLoop_cons_match hid' hv]
    have hpd : pend ~ (p0.1, v) :: dictPop pend p0.1 := perm_cons_dictPop hv
    have hmap : pend.map (fun p => some p.1) ~
        some p0.1 :: (dictPop pend p0.1).map (fun p => some p.1) := by
      simpa using hpd.map (fun p => some p.1)
    have hperm' : rest.map respId ~ (dictPop pend p0.1).map (fun p => some p.1) := by
      have h0 := hperm.trans hmap
      rw [hid'] at h0
      exact h0.cons_inv
    have hfstperm : pend.map Prod.fst ~ p0.1 :: (dictPop pend p0.1).map Prod.fst := by
      simpa using hpd.map Prod.fst
    have hnd' : ((dictPop pend p0.1).map Prod.fst).Nodup :=
      (List.nodup_cons.mp (hfstperm.nodup_iff.mp hnd)).2
    have hp0notin : p0.1 ∉ (dictPop pend p0.1).map Prod.fst :=
      (List.nodup_cons.mp (hfstperm.nodup_iff.mp hnd)).1
    rw [ih (dictPop pend p0.1) hnd' hperm']
    have h1 : futFor pend r = v := by simp [futFor, hid', hv]
    have h2 : ∀ r' ∈ rest, futFor (dictPop pend p0.1) r' = futFor pend r' := by
      intro r' hr'
      have hin : respId r' ∈ (dictPop pend p0.1).map (fun p => some p.1) :=
        hperm'.mem_iff.mp (List.mem_map_of_mem respId hr')
      obtain ⟨q, hq, hqid⟩ := List.mem_map.mp hin
      have hqid' : respId r' = some q.1 := hqid.symm
      have hqfst : q.1 ∈ (dictPop pend p0.1).map Prod.fst := List.mem_map_of_mem Prod.fst hq
      have hne : q.1 ≠ p0.1 := fun hh => hp0notin (hh ▸ hqfst)
      simp [futFor, hqid', lookup_dictPop_ne pend p0.1 q.1 hne]
    have h2' : ∀ r' ∈ rest,
        (futFor (dictPop pend p0.1) r', respResult r') = (futFor pend r', respResult r') :=
      fun r' hr' => by rw [h2 r' hr']
    rw [List.map_congr_left h2']
    simp [h1]

/-- With key-distinct pending entries and a complete, arbitrarily ordered
answer set, `flush` empties the pending dict and resolves each line's future
with that line's result, in arrival order. -/
theorem flush_complete_eq (b : AsyncBatch) (input : List Resp)
    (hnodup : (b.pending.map Prod.fst).Nodup)
    (hne : b.pending ≠ [])
    (hlen : input.length = b.pending.length)
    (hperm : input.map respId ~ b.pending.map (fun p => some p.1)) :
    b.flush input = some ⟨⟨[], b.next_id⟩,
      ["\x00GORU_FLUSH:" ++ toString b.pending.length ++ "\x00"], b.pending.length,
      input.map fun r => (futFor b.pending r, respResult r)⟩ := by
  have hie : b.pending.isEmpty = false := by simp [List.isEmpty_iff, hne]
  have hnlt : ¬input.length < b.pending.length := by omega
  have htake : input.take b.pending.length = input := by
    rw [← hlen]; simp
  have hfl := flushLoop_complete input b.pending hnodup hperm
  rw [AsyncBatch.flush]
  simp only [hie, Bool.false_eq_true, if_false, if_neg hnlt, htake, hfl]

/-- Claim C1: a flush with `N >= 1` pending entries emits one flush marker
carrying `N`, reads exactly `N` inbound lines, empties the pending dict, and
resolves every pending entry present at invocation exactly once with the
response carrying its own correlation id, whatever the arrival order. -/
theorem flush_resolves_all (b : AsyncBatch) (input : List Resp)
    (hnodup : (b.pending.map Prod.fst).Nodup)
    (hne : b.pending ≠ [])
    (hlen : input.length = b.pending.length)
    (hperm : input.map respId ~ b.pending.map (fun p => some p.1)) :
    ∃ res, b.flush input = some res ∧
      res.emitted = ["\x00GORU_FLUSH:" ++ toString b.pending.length ++ "\x00"] ∧
      res.linesRead = b.pending.length ∧
      res.state.pending = [] ∧
      res.resolutions.length = b.pending.length ∧
      ∀ p ∈ b.pending, ∃ r ∈ input, respId r = some p.1 ∧
        (p.2, respResult r) ∈ res.resolutions := by
  refine ⟨_, flush_complete_eq b input hnodup hne hlen hperm, rfl, rfl, rfl, ?_, ?_⟩
  · simp [hlen]
  · intro p hp
    have hsome : some p.1 ∈ input.map respId :=
      hperm.symm.mem_iff.mp (List.mem_map.mpr ⟨p, hp, rfl⟩)
    obtain ⟨r, hr, hrid⟩ := List.mem_map.mp hsome
    refine ⟨r, hr, hrid, ?_⟩
    have hfut : futFor b.pending r = p.2 := by
      simp [futFor, hrid, mem_lookup_of_nodup hnodup hp]
    exact List.mem_map.mpr ⟨r, hr, by rw [hfut]⟩

/-- Claim C1 witness: the three-call scenario answered out of order "2","0","1"
resolves all three entries, each with its own response. -/
theorem flush_resolves_all_witness :
    ∃ res, batch3.flush input3 = some res ∧
      res.emitted = ["\x00GORU_FLUSH:" ++ toString batch3.pending.length ++ "\x00"] ∧
      res.linesRead = batch3.pending.length ∧
      res.state.pending = [] ∧
      res.resolutions.length = batch3.pending.length ∧
      ∀ p ∈ batch3.pending, ∃ r ∈ input3, respId r = some p.1 ∧
        (p.2, respResult r) ∈ res.resolutions :=
  flush_resolves_all batch3 input3 (by decide) (by decide) (by decide) (by decide)

/-- Two entries sharing a future token also share their key when the futures
are pairwise distinct. -/
theorem eq_key_of_nodup_snd {l : List (String × Nat)} (h : (l.map Prod.snd).Nodup)
    {k k' : String} {f : Nat} (h1 : (k, f) ∈ l) (h2 : (k', f) ∈ l) : k = k' :=
  congrArg Prod.fst (List.inj_on_of_nodup_map h h1 h2 rfl)

/-- Claim C4: a batched response carrying an `error` field resolves the
matching entry's future as a failure with the host's error value and never as
a success; `flush` itself returns normally — the failure sits in the future's
result slot and surfaces only when that result is observed. -/
theorem flush_error_resolves_as_failure (b : AsyncBatch) (input : List Resp)
    (k : String) (f : Nat) (e : JVal) (r : Resp)
    (hnodup : (b.pending.map Prod.fst).Nodup)
    (hfut : (b.pending.map Prod.snd).Nodup)
    (hne : b.pending ≠ [])
    (hlen : input.length = b.pending.length)
    (hperm : input.map respId ~ b.pending.map (fun p => some p.1))
    (hmem : (k, f) ∈ b.pending)
    (hr : r ∈ input) (hid : respId r = some k) (herr : r.lookup "error" = some e) :
    ∃ res, b.flush input = some res ∧
      (f, Except.error e) ∈ res.resolutions ∧
      ∀ v, (f, Except.ok v) ∉ res.resolutions := by
  refine ⟨_, flush_complete_eq b input hnodup hne hlen hperm, ?_, ?_⟩
  · have hfutr : futFor b.pending r = f := by
      simp [futFor, hid, mem_lookup_of_nodup hnodup hmem]
    have hres : respResult r = .error e := by simp [respResult, herr]
    exact List.mem_map.mpr ⟨r, hr, by rw [hfutr, hres]⟩
  · intro v hv
    obtain ⟨r', hr', heq⟩ := List.mem_map.mp hv
    have hfst : futFor b.pending r' = f := congrArg Prod.fst heq
    have hsnd : respResult r' = .ok v := congrArg Prod.snd heq
    have hin : respId r' ∈ b.pending.map (fun p => some p.1) :=
      hperm.mem_iff.mp (List.mem_map_of_mem respId hr')
    obtain ⟨q, hq, hqid⟩ := List.mem_map.mp hin
    have hqid' : respId r' = some q.1 := hqid.symm
    have hlq : b.pending.lookup q.1 = some q.2 := mem_lookup_of_nodup hnodup hq
    have hq2 : q.2 = f := by
      have h0 := hfst
      simp [futFor, hqid', hlq] at h0
      exact h0
    have hqmem : (q.1, f) ∈ b.pending := by
      have : q = (q.1, f) := by rw [← hq2]
      exact this ▸ hq
    have hkq : k = q.1 := eq_key_of_nodup_snd hfut hmem hqmem
    have hsameid : respId r' = respId r := by rw [hqid', hid, hkq]
    have hpermnd : (b.pending.map fun p => some p.1).Nodup := by
      have hmm : b.pending.map (fun p => some p.1) = (b.pending.map Prod.fst).map some := by
        simp [List.map_map]
      rw [hmm]
      exact hnodup.map (Option.some_injective String)
    have hidnodup : (input.map respId).Nodup := hperm.nodup_iff.mpr hpermnd
    have hrr : r' = r := List.inj_on_of_nodup_map hidnodup hr' hr hsameid
    rw [hrr] at hsnd
    rw [respResult, herr] at hsnd
    exact Except.noConfusion hsnd

/-- Claim C4 witness: a single pending call answered by an error response is
resolved as that failure and by no success, with flush returning normally. -/
theorem flush_error_resolves_as_failure_witness :
    ∃ res, (AsyncBatch.mk [("0", 100)] 1).flush
        [[("id", JVal.str "0"), ("error", JVal.str "nope")]] = some res ∧
      (100, Except.error (JVal.str "nope")) ∈ res.resolutions ∧
      ∀ v, (100, Except.ok v) ∉ res.resolutions :=
  flush_error_resolves_as_failure (AsyncBatch.mk [("0", 100)] 1)
    [[("id", JVal.str "0"), ("error", JVal.str "nope")]]
    "0" 100 (JVal.str "nope") [("id", JVal.str "0"), ("error", JVal.str "nope")]
    (by decide) (by decide) (by decide) (by decide) (by decide)
    (List.mem_singleton.mpr rfl) (List.mem_singleton.mpr rfl) rfl rfl

/-- Claim C7: an inbound line whose correlation id is not among the pending
keys is silently dropped — it resolves no entry, removes nothing, raises
nothing — while `flush` still reads exactly the count of lines it announced
in the flush marker. -/
theorem flush_drops_unknown_ids :
    (∀ (pend : List (String × Nat)) (resp : Resp) (rest : List Resp),
      (∀ k, respId resp = some k → pend.lookup k = none) →
      flushLoop pend (resp :: rest) = flushLoop pend rest) ∧
    (∀ (b : AsyncBatch) (input : List Resp), b.pending ≠ [] →
      b.pending.length ≤ input.length →
      ∃ res, b.flush input = some res ∧ res.linesRead = b.pending.length ∧
        res.emitted = ["\x00GORU_FLUSH:" ++ toString b.pending.length ++ "\x00"]) := by
  constructor
  · intro pend resp rest h
    cases hid : respId resp with
    | none => exact flushLoop_cons_noid hid
    | some k => exact flushLoop_cons_unknown hid (h k hid)
  · intro b input hne hlen
    have hie : b.pending.isEmpty = false := by simp [List.isEmpty_iff, hne]
    have hnlt : ¬input.length < b.pending.length := by omega
    refine ⟨⟨⟨(flushLoop b.pending (input.take b.pending.length)).1, b.next_id⟩,
        ["\x00GORU_FLUSH:" ++ toString b.pending.length ++ "\x00"], b.pending.length,
        (flushLoop b.pending (input.take b.pending.length)).2⟩, ?_, rfl, rfl⟩
    rw [AsyncBatch.flush]
    simp only [hie, Bool.false_eq_true, if_false, if_neg hnlt]

/-- Claim C7 witness: a line with unknown id "9" is dropped without touching
the pending dict, and a flush whose only answer has an unknown id still reads
its announced single line. -/
theorem flush_drops_unknown_ids_witness :
    (flushLoop [("0", 100)] [[("id", JVal.str "9")], [("id", JVal.str "0")]] =
      flushLoop [("0", 100)] [[("id", JVal.str "0")]]) ∧
    (∃ res, (AsyncBatch.mk [("0", 100)] 1).flush [[("id", JVal.str "9")]] = some res ∧
      res.linesRead = (AsyncBatch.mk [("0", 100)] 1).pending.length ∧
      res.emitted = ["\x00GORU_FLUSH:" ++
        toString (AsyncBatch.mk [("0", 100)] 1).pending.length ++ "\x00"]) :=
  ⟨flush_drops_unknown_ids.1 _ _ _ (by simp [respId, List.lookup]),
   flush_drops_unknown_ids.2 _ _ (by decide) (by decide)⟩

/-- Resolved futures are drawn, without repetition, from the pending futures,
for any inbound lines whatsoever. -/
theorem flushLoop_res_subperm : ∀ (input : List Resp) (pend : List (String × Nat)),
    (flushLoop pend input).2.map Prod.fst <+~ pend.map Prod.snd := by
  intro input
  induction input with
  | nil => intro pend; simp [flushLoop_nil]
  | cons r rest ih =>
    intro pend
    cases hid : respId r with
    | none => rw [flushLoop_cons_noid hid]; exact ih pend
    | some rid =>
      cases hv : pend.lookup rid with
      | none => rw [flushLoop_cons_unknown hid hv]; exact ih pend
      | some fut =>
        rw [flushLoop_cons_match hid hv]
        have hpd := perm_cons_dictPop hv
        have hsnd : pend.map Prod.snd ~ fut :: (dictPop pend rid).map Prod.snd := by
          simpa using hpd.map Prod.snd
        obtain ⟨l, hp, hs⟩ := ih (dictPop pend rid)
        exact Subperm.trans ⟨fut :: l, hp.cons fut, hs.cons₂ fut⟩ hsnd.symm.subperm

/-- Claim C9: each pending result slot is resolved at most once per flush even
against a misbehaving host: resolved futures are pairwise distinct whenever
the pending futures are, and — because the entry is popped before its future
is set — a second line repeating an already-consumed id inside the same flush
is treated as unknown and dropped. -/
theorem flush_resolves_at_most_once :
    (∀ (pend : List (String × Nat)) (input : List Resp),
      (pend.map Prod.snd).Nodup → ((flushLoop pend input).2.map Prod.fst).Nodup) ∧
    (∀ (pend : List (String × Nat)) (r1 r2 : Resp) (rest : List Resp) (k : String) (fut : Nat),
      (pend.map Prod.fst).Nodup → respId r1 = some k → respId r2 = some k →
      pend.lookup k = some fut →
      flushLoop pend (r1 :: r2 :: rest) =
        ((flushLoop (dictPop pend k) rest).1,
         (fut, respResult r1) :: (flushLoop (dictPop pend k) rest).2)) := by
  constructor
  · intro pend input hnd
    obtain ⟨l, hp, hs⟩ := flushLoop_res_subperm input pend
    exact hp.nodup_iff.mp (hs.nodup hnd)
  · intro pend r1 r2 rest k fut hnd h1 h2 hv
    rw [flushLoop_cons_match h1 hv]
    have hpd := perm_cons_dictPop hv
    have hfstperm : pend.map Prod.fst ~ k :: (dictPop pend k).map Prod.fst := by
      simpa using hpd.map Prod.fst
    have hk : k ∉ (dictPop pend k).map Prod.fst :=
      (List.nodup_cons.mp (hfstperm.nodup_iff.mp hnd)).1
    have hlk : (dictPop pend k).lookup k = none := by
      cases hlk : (dictPop pend k).lookup k with
      | none => rfl
      | some f => exact absurd ((lookup_isSome_iff _ _).mp (by simp [hlk])) hk
    rw [flushLoop_cons_unknown h2 hlk]

/-- Claim C9 witness: with entries "0" and "1" pending, a duplicated "0"
answer resolves future 100 once, drops the duplicate line, and the resolved
futures of the whole flush are distinct. -/
theorem flush_resolves_at_most_once_witness :
    (((flushLoop [("0", 100), ("1", 101)]
        [[("id", JVal.str "0")], [("id", JVal.str "0")], [("id", JVal.str "1")]]).2.map
        Prod.fst).Nodup) ∧
    (flushLoop [("0", 100), ("1", 101)]
        ([("id", JVal.str "0")] :: [("id", JVal.str "0")] :: [[("id", JVal.str "1")]]) =
      ((flushLoop (dictPop [("0", 100), ("1", 101)] "0") [[("id", JVal.str "1")]]).1,
       (100, respResult [("id", JVal.str "0")]) ::
         (flushLoop (dictPop [("0", 100), ("1", 101)] "0") [[("id", JVal.str "1")]]).2)) :=
  ⟨flush_resolves_at_most_once.1 [("0", 100), ("1", 101)] _ (by decide),
   flush_resolves_at_most_once.2 [("0", 100), ("1", 101)] _ _ _ "0" 100
     (by decide) rfl rfl (by decide)⟩

/-- Claim C3: for every response line decoded by the blocking call primitive,
the call fails with a host error carrying the response's error value iff the
decoded response contains an `error` field; otherwise it returns the
response's `data` value, and an absent `data` field yields `None` (`.ok none`)
rather than a failure. -/
theorem goru_call_error_handling (fn : String) (args : JVal) (resp : Resp) :
    ((∃ e, (PyLang.goru_call fn args resp).2 = .error e) ↔
      (resp.lookup "error").isSome) ∧
    (∀ e, resp.lookup "error" = some e → (PyLang.goru_call fn args resp).2 = .error e) ∧
    (resp.lookup "error" = none →
      (PyLang.goru_call fn args resp).2 = .ok (resp.lookup "data")) ∧
    (resp.lookup "error" = none → resp.lookup "data" = none →
      (PyLang.goru_call fn args resp).2 = .ok none) := by
  refine ⟨?_, ?_, ?_, ?_⟩
  · constructor
    · rintro ⟨e, he⟩
      unfold PyLang.goru_call at he
      cases h : resp.lookup "error" with
      | none => simp [h] at he
      | some x => simp [h]
    · intro h
      cases h' : resp.lookup "error" with
      | none => simp [h'] at h
      | some x => exact ⟨x, by simp [PyLang.goru_call, h']⟩
  · intro e he
    simp [PyLang.goru_call, he]
  · intro h
    simp [PyLang.goru_call, h]
  · intro h hd
    simp [PyLang.goru_call, h, hd]

/-- Claim C3 witness: a concrete error response fails with that error, and a
concrete response with no `error` and no `data` returns `None`. -/
theorem goru_call_error_handling_witness :
    (([("error", JVal.str "boom")] : Resp).lookup "error" = some (.str "boom") →
      (PyLang.goru_call "kv_get" (.obj []) [("error", .str "boom")]).2 = .error (.str "boom")) ∧
    (([("id", JVal.str "7")] : Resp).lookup "error" = none →
      ([("id", JVal.str "7")] : Resp).lookup "data" = none →
      (PyLang.goru_call "kv_get" (.obj []) [("id", .str "7")]).2 = .ok none) :=
  ⟨fun h => (goru_call_error_handling "kv_get" (.obj []) [("error", .str "boom")]).2.1 _ h,
   fun h hd => (goru_call_error_handling "kv_get" (.obj []) [("id", .str "7")]).2.2.2 h hd⟩

/-- Claim C8: the blocking call primitive of `src/sandbox/stdlib.py` and the
one of `src/language/python/stdlib.py` are extensionally equal: for every
function name, argument value and decoded inbound response they emit the same
sentinel-wrapped frame and produce the same outcome. -/
theorem goru_call_sandbox_refines_lang (fn : String) (args : JVal) (resp : Resp) :
    PySandbox.goru_call fn args resp = PyLang.goru_call fn args resp := rfl

/-- Claim C10: `ok` is true iff `200 <= status < 300`, and an absent `status`
field defaults the status code to `0`, making `ok` false. -/
theorem http_response_ok_iff (data : Resp) (n : Int) :
    (data.lookup "status" = some (.num n) →
      ((HTTPResponse.ofData data).ok = some true ↔ (200 ≤ n ∧ n < 300))) ∧
    (data.lookup "status" = none →
      (HTTPResponse.ofData data).status_code = .num 0 ∧
      (HTTPResponse.ofData data).ok = some false) := by
  constructor
  · intro h
    simp [HTTPResponse.ofData, HTTPResponse.ok, h]
  · intro h
    refine ⟨by simp [HTTPResponse.ofData, h], ?_⟩
    simp [HTTPResponse.ofData, HTTPResponse.ok, h]

/-- Claim C10 witness: status 204 is ok, status 404 is not, and a response
with no `status` field has status code 0 and is not ok. -/
theorem http_response_ok_iff_witness :
    ((HTTPResponse.ofData [("status", .num 204)]).ok = some true ↔ (200 ≤ (204 : Int) ∧ (204 : Int) < 300)) ∧
    ((HTTPResponse.ofData ([] : Resp)).status_code = .num 0 ∧
      (HTTPResponse.ofData ([] : Resp)).ok = some false) :=
  ⟨(http_response_ok_iff [("status", .num 204)] 204).1 rfl,
   (http_response_ok_iff ([] : Resp) 0).2 rfl⟩

/-! ### Decimal renderings of naturals are injective -/

/-- `Nat.digitChar` is injective below 10. -/
theorem digitChar_inj10 :
    ∀ m, m < 10 → ∀ n, n < 10 → Nat.digitChar m = Nat.digitChar n → m = n := by decide

/-- With enough fuel, `Nat.toDigitsCore` writes the base-10 digits. -/
theorem toDigitsCore_eq_digits (n : Nat) : ∀ (fuel : Nat) (ds : List Char), 0 < n → n < fuel →
    Nat.toDigitsCore 10 fuel n ds = ((Nat.digits 10 n).map Nat.digitChar).reverse ++ ds := by
  induction n using Nat.strong_induction_on with
  | _ n ih =>
    intro fuel ds hpos hfuel
    match fuel, hfuel with
    | fuel + 1, hfuel =>
      simp only [Nat.toDigitsCore]
      rw [Nat.digits_def' (by norm_num : (1 : ℕ) < 10) hpos]
      by_cases hdiv : n / 10 = 0
      · simp [hdiv]
      · rw [if_neg hdiv]
        have hlt : n / 10 < n := Nat.div_lt_self hpos (by norm_num)
        have h1 : 0 < n / 10 := Nat.pos_of_ne_zero hdiv
        have h2 : n / 10 < fuel := by omega
        rw [ih (n / 10) hlt fuel (Nat.digitChar (n % 10) :: ds) h1 h2]
        simp

/-- `Nat.repr` of a positive number is its reversed digit list. -/
theorem repr_pos_eq (n : Nat) (h : 0 < n) :
    Nat.repr n = (((Nat.digits 10 n).map Nat.digitChar).reverse).asString := by
  unfold Nat.repr Nat.toDigits
  rw [toDigitsCore_eq_digits n (n + 1) [] h (Nat.lt_succ_self n), List.append_nil]

/-- Mapping `digitChar` over digit lists can be cancelled. -/
theorem map_digitChar_cancel : ∀ (l₁ l₂ : List Nat), (∀ x ∈ l₁, x < 10) → (∀ x ∈ l₂, x < 10) →
    l₁.map Nat.digitChar = l₂.map Nat.digitChar → l₁ = l₂ := by
  intro l₁
  induction l₁ with
  | nil =>
    intro l₂ _ _ h
    cases l₂ with
    | nil => rfl
    | cons b l' => simp at h
  | cons a l ih =>
    intro l₂ h1 h2 h
    cases l₂ with
    | nil => simp at h
    | cons b l' =>
      simp only [List.map_cons, List.cons.injEq] at h
      obtain ⟨hab, hll⟩ := h
      have hb : a = b :=
        digitChar_inj10 a (h1 a (List.mem_cons_self a l)) b (h2 b (List.mem_cons_self b l')) hab
      rw [hb, ih l' (fun x hx => h1 x (List.mem_cons_of_mem a hx))
        (fun x hx => h2 x (List.mem_cons_of_mem b hx)) hll]

/-- Positive numbers never render like zero. -/
theorem repr_pos_ne_repr_zero {n : Nat} (hn : 0 < n) : Nat.repr n ≠ Nat.repr 0 := by
  intro h
  rw [repr_pos_eq n hn] at h
  have h0 : Nat.repr 0 = (['0'] : List Char).asString := rfl
  rw [h0] at h
  have hl : ((Nat.digits 10 n).map Nat.digitChar).reverse = ['0'] := congrArg String.data h
  have hrev : (Nat.digits 10 n).map Nat.digitChar = ['0'] := by
    have := congrArg List.reverse hl
    simpa using this
  cases hd : Nat.digits 10 n with
  | nil => rw [hd] at hrev; simp at hrev
  | cons d tl =>
    rw [hd] at hrev
    simp only [List.map_cons, List.cons.injEq] at hrev
    obtain ⟨hdc, htl⟩ := hrev
    have htl' : tl = [] := by simpa using htl
    have hdlt : d < 10 :=
      Nat.digits_lt_base (by norm_num) (by rw [hd]; exact List.mem_cons_self _ _)
    have hd0 : d = 0 := digitChar_inj10 d hdlt 0 (by norm_num) (by rw [hdc]; rfl)
    have hofd := Nat.ofDigits_digits 10 n
    rw [hd, htl', hd0] at hofd
    simp [Nat.ofDigits] at hofd
    omega

/-- `str(n)` is injective: distinct counter values give distinct ids. -/
theorem nat_repr_inj : Function.Injective Nat.repr := by
  intro m n h
  rcases Nat.eq_zero_or_pos m with hm | hm
  · rcases Nat.eq_zero_or_pos n with hn | hn
    · rw [hm, hn]
    · exact absurd (hm ▸ h.symm) (repr_pos_ne_repr_zero hn)
  · rcases Nat.eq_zero_or_pos n with hn | hn
    · exact absurd (hn ▸ h) (repr_pos_ne_repr_zero hm)
    · rw [repr_pos_eq m hm, repr_pos_eq n hn] at h
      have hl : ((Nat.digits 10 m).map Nat.digitChar).reverse =
          ((Nat.digits 10 n).map Nat.digitChar).reverse := congrArg String.data h
      have hmap : (Nat.digits 10 m).map Nat.digitChar = (Nat.digits 10 n).map Nat.digitChar := by
        have := congrArg List.reverse hl
        simpa using this
      have hdig : Nat.digits 10 m = Nat.digits 10 n :=
        map_digitChar_cancel _ _ (fun x hx => Nat.digits_lt_base (by norm_num) hx)
          (fun x hx => Nat.digits_lt_base (by norm_num) hx) hmap
      exact Nat.digits.injective 10 hdig

/-- `toString` on naturals is `Nat.repr`. -/
theorem toString_nat_eq_repr (n : Nat) : toString n = Nat.repr n := rfl

/-! ### dictInsert, dictPop and flush preservation -/

/-- An inserted entry is a member of the dict. -/
theorem mem_dictInsert_self (d : List (String × Nat)) (k : String) (v : Nat) :
    (k, v) ∈ dictInsert d k v := by
  rw [dictInsert]
  by_cases h : d.any (fun p => p.1 == k) = true
  · rw [if_pos h]
    obtain ⟨p, hp, hpk⟩ := List.any_eq_true.mp h
    refine List.mem_map.mpr ⟨p, hp, ?_⟩
    simp [hpk]
  · rw [if_neg h]
    exact List.mem_append_right _ (List.mem_singleton.mpr rfl)

/-- Inserting a fresh key appends its entry. -/
theorem dictInsert_fresh {d : List (String × Nat)} {k : String} (v : Nat)
    (h : k ∉ d.map Prod.fst) : dictInsert d k v = d ++ [(k, v)] := by
  rw [dictInsert, if_neg]
  intro hc
  obtain ⟨p, hp, hpk⟩ := List.any_eq_true.mp hc
  exact h (List.mem_map.mpr ⟨p, hp, by simpa using hpk⟩)

/-- Popping never keeps an entry that was not there, and entries with other
keys survive. -/
theorem mem_dictPop_of_ne {l : List (String × Nat)} {k' : String} {v : Nat}
    (h : (k', v) ∈ l) {k : String} (hne : k' ≠ k) : (k', v) ∈ dictPop l k := by
  induction l with
  | nil => simp at h
  | cons p l ih =>
    obtain ⟨a, b⟩ := p
    by_cases ha : a = k
    · rw [dictPop_cons_hit l b ha]
      rcases List.mem_cons.mp h with h1 | h1
      · exact absurd (congrArg Prod.fst h1) (by simpa using ha ▸ hne)
      · exact h1
    · rw [dictPop_cons_miss l b ha]
      rcases List.mem_cons.mp h with h1 | h1
      · exact h1 ▸ List.mem_cons_self _ _
      · exact List.mem_cons_of_mem _ (ih h1)

/-- The read loop only ever removes pending entries. -/
theorem flushLoop_pending_sublist : ∀ (input : List Resp) (pend : List (String × Nat)),
    (flushLoop pend input).1 <+ pend := by
  intro input
  induction input with
  | nil => intro pend; simp [flushLoop_nil]
  | cons r rest ih =>
    intro pend
    cases hid : respId r with
    | none => rw [flushLoop_cons_noid hid]; exact ih pend
    | some rid =>
      cases hv : pend.lookup rid with
      | none => rw [flushLoop_cons_unknown hid hv]; exact ih pend
      | some fut =>
        rw [flushLoop_cons_match hid hv]
        exact (ih (dictPop pend rid)).trans (List.eraseP_sublist pend)

/-- An entry whose id is answered by no processed line survives the loop. -/
theorem flushLoop_keeps_unmatched : ∀ (input : List Resp) (pend : List (String × Nat))
    (k : String) (v : Nat), (k, v) ∈ pend → (∀ r ∈ input, respId r ≠ some k) →
    (k, v) ∈ (flushLoop pend input).1 := by
  intro input
  induction input with
  | nil => intro pend k v h _; simpa [flushLoop_nil] using h
  | cons r rest ih =>
    intro pend k v hmem hno
    cases hid : respId r with
    | none =>
      rw [flushLoop_cons_noid hid]
      exact ih pend k v hmem (fun r' hr' => hno r' (List.mem_cons_of_mem _ hr'))
    | some rid =>
      have hne : rid ≠ k := fun hh =>
        hno r (List.mem_cons_self _ _) (by rw [hid, hh])
      cases hv : pend.lookup rid with
      | none =>
        rw [flushLoop_cons_unknown hid hv]
        exact ih pend k v hmem (fun r' hr' => hno r' (List.mem_cons_of_mem _ hr'))
      | some fut =>
        rw [flushLoop_cons_match hid hv]
        exact ih (dictPop pend rid) k v (mem_dictPop_of_ne hmem (Ne.symm hne))
          (fun r' hr' => hno r' (List.mem_cons_of_mem _ hr'))

/-- A successful flush keeps the counter `next_id`. -/
theorem flush_next_id {b : AsyncBatch} {input : List Resp} {res : FlushResult}
    (h : b.flush input = some res) : res.state.next_id = b.next_id := by
  simp only [AsyncBatch.flush] at h
  split at h
  · obtain rfl := (Option.some.inj h).symm; rfl
  · split at h
    · exact absurd h (by simp)
    · obtain rfl := (Option.some.inj h).symm; rfl

/-- A successful flush only removes pending entries. -/
theorem flush_pending_sublist {b : AsyncBatch} {input : List Resp} {res : FlushResult}
    (h : b.flush input = some res) : res.state.pending <+ b.pending := by
  simp only [AsyncBatch.flush] at h
  split at h
  · obtain rfl := (Option.some.inj h).symm; exact List.Sublist.refl _
  · split at h
    · exact absurd h (by simp)
    · obtain rfl := (Option.some.inj h).symm
      exact flushLoop_pending_sublist _ _

/-! ### Trace invariants of the batch scheduler -/

/-- A flush step never changes `next_id`. -/
theorem stepOp_fl_next_id (s : TraceState) (input : List Resp) :
    (stepOp s (.fl input)).batch.next_id = s.batch.next_id := by
  cases h : s.batch.flush input with
  | none => simp [stepOp, h]
  | some res => simp [stepOp, h, flush_next_id h]

/-- An enqueue step appends the fresh entry, whose key is new. -/
theorem enq_pending_append (s : TraceState) (fn : String) (args : JVal) (fut : Nat)
    (h2 : KeysBounded s.batch) :
    toString s.batch.next_id ∉ s.batch.pending.map Prod.fst ∧
    (stepOp s (.enq fn args fut)).batch.pending
      = s.batch.pending ++ [(toString s.batch.next_id, fut)] := by
  have hfresh : toString s.batch.next_id ∉ s.batch.pending.map Prod.fst := by
    intro hmem
    obtain ⟨i, hlt, hrep⟩ := h2 _ hmem
    rw [toString_nat_eq_repr] at hrep
    exact absurd (nat_repr_inj hrep) (by omega)
  refine ⟨hfresh, ?_⟩
  simp [stepOp, AsyncBatch.queue, dictInsert_fresh fut hfresh]

/-- Key distinctness and key boundedness hold at every reachable state, under
any trace whatsoever. -/
theorem nodup_inv_aux : ∀ (ops : List BOp) (s : TraceState),
    (s.batch.pending.map Prod.fst).Nodup → KeysBounded s.batch →
    ((runTrace s ops).batch.pending.map Prod.fst).Nodup ∧
      KeysBounded (runTrace s ops).batch := by
  intro ops
  induction ops with
  | nil => intro s h1 h2; exact ⟨h1, h2⟩
  | cons op ops ih =>
    intro s h1 h2
    rw [runTrace]
    cases op with
    | enq fn args fut =>
      obtain ⟨hfresh, happ⟩ := enq_pending_append s fn args fut h2
      refine ih (stepOp s (.enq fn args fut)) ?_ ?_
      · rw [happ]
        have hperm : (s.batch.pending.map Prod.fst ++ [toString s.batch.next_id]) ~
            toString s.batch.next_id :: s.batch.pending.map Prod.fst := by
          exact List.perm_append_comm
        rw [List.map_append]
        exact hperm.nodup_iff.mpr (List.nodup_cons.mpr ⟨hfresh, h1⟩)
      · intro k hk
        rw [happ, List.map_append] at hk
        have hnid : (stepOp s (.enq fn args fut)).batch.next_id = s.batch.next_id + 1 := by
          simp [stepOp, AsyncBatch.queue]
        rcases List.mem_append.mp hk with hk | hk
        · obtain ⟨i, hlt, hrep⟩ := h2 k hk
          exact ⟨i, by omega, hrep⟩
        · refine ⟨s.batch.next_id, by omega, ?_⟩
          simpa [toString_nat_eq_repr] using hk
    | fl input =>
      cases h : s.batch.flush input with
      | none =>
        have hs : stepOp s (.fl input) = s := by simp [stepOp, h]
        rw [hs]
        exact ih s h1 h2
      | some res =>
        have hs : (stepOp s (.fl input)).batch = res.state := by simp [stepOp, h]
        refine ih (stepOp s (.fl input)) ?_ ?_
        · rw [hs]
          exact ((flush_pending_sublist h).map Prod.fst).nodup h1
        · intro k hk
          rw [hs] at hk ⊢
          obtain ⟨i, hlt, hrep⟩ :=
            h2 k (((flush_pending_sublist h).map Prod.fst).subset hk)
          exact ⟨i, by rw [flush_next_id h]; omega, hrep⟩

/-- `assignedIds` enumerates successive decimal counter values. -/
theorem assignedIds_eq : ∀ (ops : List BOp) (s : TraceState),
    assignedIds s ops = (List.range' s.batch.next_id (countEnq ops)).map Nat.repr := by
  intro ops
  induction ops with
  | nil => intro s; simp [assignedIds, countEnq]
  | cons op ops ih =>
    intro s
    cases op with
    | enq fn args fut =>
      simp only [assignedIds, countEnq]
      rw [ih]
      have hnid : (stepOp s (.enq fn args fut)).batch.next_id = s.batch.next_id + 1 := by
        simp [stepOp, AsyncBatch.queue]
      rw [hnid, List.range'_succ, List.map_cons]
      simp [AsyncBatch.queue, toString_nat_eq_repr]
    | fl input =>
      simp only [assignedIds, countEnq]
      rw [ih, stepOp_fl_next_id]

/-- Under a complete trace, the unresolved-entry count equals the frames
issued since the last successful flush. -/
theorem count_inv_aux : ∀ (ops : List BOp) (s : TraceState),
    CompleteTrace s ops →
    (s.batch.pending.map Prod.fst).Nodup → KeysBounded s.batch →
    s.batch.pending.length = s.framesSinceFlush →
    (runTrace s ops).batch.pending.length = (runTrace s ops).framesSinceFlush := by
  intro ops
  induction ops with
  | nil => intro s _ _ _ h3; exact h3
  | cons op ops ih =>
    intro s hc h1 h2 h3
    obtain ⟨hop, hrest⟩ := hc
    rw [runTrace]
    have hstep := nodup_inv_aux [op] s h1 h2
    rw [runTrace, runTrace] at hstep
    refine ih (stepOp s op) hrest hstep.1 hstep.2 ?_
    cases op with
    | enq fn args fut =>
      obtain ⟨_, happ⟩ := enq_pending_append s fn args fut h2
      rw [happ, List.length_append]
      have hfr : (stepOp s (.enq fn args fut)).framesSinceFlush = s.framesSinceFlush + 1 := by
        simp [stepOp]
      rw [hfr]
      simp
      omega
    | fl input =>
      obtain ⟨hlen, hperm⟩ := hop
      by_cases hpe : s.batch.pending = []
      · have hie : s.batch.pending.isEmpty = true := by simp [hpe]
        have hfl : s.batch.flush input = some ⟨s.batch, [], 0, []⟩ := by
          rw [AsyncBatch.flush, if_pos hie]
        simp [stepOp, hfl, hie, hpe]
      · have hfl := flush_complete_eq s.batch input h1 hpe hlen hperm
        simp [stepOp, hfl]

/-- Claim C2: correlation ids are assigned at enqueue time as the decimal
renderings of 0, 1, 2, ..., hence unique and strictly increasing over the
scheduler's lifetime, and the pending dict never holds two entries with the
same id. -/
theorem correlation_ids_unique_increasing (ops : List BOp) :
    assignedIds initTS ops = (List.range (countEnq ops)).map Nat.repr ∧
    (assignedIds initTS ops).Nodup ∧
    (assignedIds initTS ops).Pairwise
      (fun a b => ∃ i j, i < j ∧ a = Nat.repr i ∧ b = Nat.repr j) ∧
    ((runTrace initTS ops).batch.pending.map Prod.fst).Nodup := by
  have h1 : assignedIds initTS ops = (List.range (countEnq ops)).map Nat.repr := by
    rw [assignedIds_eq ops initTS, List.range_eq_range']
    rfl
  refine ⟨h1, ?_, ?_, ?_⟩
  · rw [h1]
    exact (List.nodup_range _).map nat_repr_inj
  · rw [h1]
    exact (List.pairwise_lt_range _).map Nat.repr
      (fun i j hij => ⟨i, j, hij, rfl, rfl⟩)
  · exact (nodup_inv_aux ops initTS (by simp [initTS, AsyncBatch.init])
      (by intro k hk; simp [initTS, AsyncBatch.init] at hk)).1

/-- Claim C5: an entry enters the pending dict the moment its call is
enqueued and stays until a response with its id is processed; the dict never
holds two entries with the same id; and on complete traces the number of
unresolved entries equals the number of request frames issued since the last
successful flush. -/
theorem pending_mapping_invariant (ops : List BOp) (hc : CompleteTrace initTS ops) :
    (∀ (s : TraceState) (fn : String) (args : JVal) (fut : Nat),
      (toString s.batch.next_id, fut) ∈ (stepOp s (.enq fn args fut)).batch.pending) ∧
    (∀ (input : List Resp) (pend : List (String × Nat)) (k : String) (v : Nat),
      (k, v) ∈ pend → (∀ r ∈ input, respId r ≠ some k) →
      (k, v) ∈ (flushLoop pend input).1) ∧
    ((runTrace initTS ops).batch.pending.map Prod.fst).Nodup ∧
    (runTrace initTS ops).batch.pending.length =
      (runTrace initTS ops).framesSinceFlush := by
  refine ⟨?_, flushLoop_keeps_unmatched, ?_, ?_⟩
  · intro s fn args fut
    simp only [stepOp, AsyncBatch.queue]
    exact mem_dictInsert_self _ _ _
  · exact (nodup_inv_aux ops initTS (by simp [initTS, AsyncBatch.init])
      (by intro k hk; simp [initTS, AsyncBatch.init] at hk)).1
  · exact count_inv_aux ops initTS hc (by simp [initTS, AsyncBatch.init])
      (by intro k hk; simp [initTS, AsyncBatch.init] at hk) rfl

/-- Claim C5 witness: a concrete complete trace — two enqueues answered by one
flush in reverse order — satisfies every part of the invariant. -/
theorem pending_mapping_invariant_witness :
    ((toString initTS.batch.next_id, 55) ∈
      (stepOp initTS (.enq "time_now" (.obj []) 55)).batch.pending) ∧
    (("0", 100) ∈ (flushLoop [("0", 100)] [[("id", JVal.str "9")]]).1) ∧
    ((runTrace initTS
        [.enq "kv_get" (.obj []) 100, .enq "kv_get" (.obj []) 101,
         .fl [[("id", JVal.str "1")], [("id", JVal.str "0")]]]).batch.pending.map
        Prod.fst).Nodup ∧
    (runTrace initTS
        [.enq "kv_get" (.obj []) 100, .enq "kv_get" (.obj []) 101,
         .fl [[("id", JVal.str "1")], [("id", JVal.str "0")]]]).batch.pending.length =
      (runTrace initTS
        [.enq "kv_get" (.obj []) 100, .enq "kv_get" (.obj []) 101,
         .fl [[("id", JVal.str "1")], [("id", JVal.str "0")]]]).framesSinceFlush := by
  have hc : CompleteTrace initTS
      [.enq "kv_get" (.obj []) 100, .enq "kv_get" (.obj []) 101,
       .fl [[("id", JVal.str "1")], [("id", JVal.str "0")]]] :=
    ⟨trivial, trivial, ⟨by decide, by decide⟩, trivial⟩
  have h := pending_mapping_invariant _ hc
  exact ⟨h.1 initTS "time_now" (.obj []) 55,
    h.2.1 [[("id", JVal.str "9")]] [("0", 100)] "0" 100 (by decide) (by decide),
    h.2.2.1, h.2.2.2⟩

/-! ### The cooperative scheduler loop -/

/-- Issuing batched calls never touches the ghost log. -/
theorem applyEnqs_log : ∀ (l : List (String × JVal × Nat)) (s : EvState),
    (applyEnqs s l).log = s.log := by
  intro l
  induction l with
  | nil => intro s; rfl
  | cons e rest ih =>
    intro s
    obtain ⟨fn, args, fut⟩ := e
    rw [applyEnqs, ih]

/-- Issuing batched calls never reads the inbound stream. -/
theorem applyEnqs_input : ∀ (l : List (String × JVal × Nat)) (s : EvState),
    (applyEnqs s l).input = s.input := by
  intro l
  induction l with
  | nil => intro s; rfl
  | cons e rest ih =>
    intro s
    obtain ⟨fn, args, fut⟩ := e
    rw [applyEnqs, ih]

/-- Running one callback logs exactly its id. -/
theorem applyCb_log (c : Cb) (s : EvState) : (applyCb c s).log = s.log ++ [Ev.ran c.id] := by
  rw [applyCb]
  exact applyEnqs_log c.enqs _

/-- Running one callback reads nothing from the inbound stream. -/
theorem applyCb_input (c : Cb) (s : EvState) : (applyCb c s).input = s.input := by
  rw [applyCb]
  exact applyEnqs_input c.enqs _

/-- Claim C6: `run_until_complete` alternates a full FIFO drain of the ready
deque (callbacks run in scheduling order, those scheduled during the pass
running after the already-ready ones, with no inbound read) with a single
`_batch.flush()` call — the only suspension point — and stops exactly when
the top-level future is done, returning its result (value or failure). -/
theorem event_loop_drains_fifo_then_flushes :
    (∀ (fuel : Nat) (q : List Cb) (s s' : EvState), runOnceF fuel q s = some s' →
      ∃ ord, drainOrder fuel q = some ord ∧ s'.log = s.log ++ ord.map Ev.ran ∧
        s'.input = s.input) ∧
    (∀ (innerFuel fuel : Nat) (s : EvState) (r : FutRes), s.done = some r →
      run_until_complete innerFuel (fuel + 1) s = some (r, s)) ∧
    (∀ (innerFuel fuel : Nat) (s : EvState), s.done = none →
      run_until_complete innerFuel (fuel + 1) s =
        Option.bind (runOnceF innerFuel s.ready { s with ready := [] })
          (fun s₁ => Option.bind (flushStep s₁) (run_until_complete innerFuel fuel))) ∧
    (∀ (innerFuel fuel : Nat) (s : EvState) (r : FutRes) (s' : EvState),
      run_until_complete innerFuel fuel s = some (r, s') → s'.done = some r) := by
  have hfifo : ∀ (fuel : Nat) (q : List Cb) (s s' : EvState), runOnceF fuel q s = some s' →
      ∃ ord, drainOrder fuel q = some ord ∧ s'.log = s.log ++ ord.map Ev.ran ∧
        s'.input = s.input := by
    intro fuel
    induction fuel with
    | zero =>
      intro q s s' h
      cases q with
      | nil =>
        obtain rfl := (Option.some.inj h).symm
        exact ⟨[], rfl, by simp, rfl⟩
      | cons c rest => simp [runOnceF] at h
    | succ fuel ih =>
      intro q s s' h
      cases q with
      | nil =>
        obtain rfl := (Option.some.inj h).symm
        exact ⟨[], rfl, by simp, rfl⟩
      | cons c rest =>
        rw [runOnceF] at h
        by_cases hc : c.cancelled
        · rw [if_pos hc] at h
          obtain ⟨ord, h1, h2, h3⟩ := ih rest s s' h
          refine ⟨ord, ?_, h2, h3⟩
          rw [drainOrder, if_pos hc, h1]
        · rw [if_neg hc] at h
          obtain ⟨ord, h1, h2, h3⟩ := ih (rest ++ c.schedules) (applyCb c s) s' h
          refine ⟨c.id :: ord, ?_, ?_, ?_⟩
          · rw [drainOrder, if_neg hc, h1]
            rfl
          · rw [h2, applyCb_log]
            simp
          · rw [h3, applyCb_input]
  refine ⟨hfifo, ?_, ?_, ?_⟩
  · intro innerFuel fuel s r h
    rw [run_until_complete, h]
  · intro innerFuel fuel s h
    rw [run_until_complete]
    split
    · rename_i r hr
      rw [h] at hr
      exact Option.noConfusion hr
    · cases h1 : runOnceF innerFuel s.ready { s with ready := [] } with
      | none => rfl
      | some s₁ =>
        cases h2 : flushStep s₁ with
        | none => simp [h2]
        | some s₂ => simp [h2]
  · intro innerFuel fuel
    induction fuel with
    | zero =>
      intro s r s' h
      simp [run_until_complete] at h
    | succ fuel ih =>
      intro s r s' h
      rw [run_until_complete] at h
      split at h
      · rename_i r0 hr0
        have hp := Option.some.inj h
        have hr : r0 = r := congrArg Prod.fst hp
        have hs : s = s' := congrArg Prod.snd hp
        rw [← hs, hr0, hr]
      · split at h
        · exact absurd h (by simp)
        · rename_i s₁ h1
          split at h
          · exact absurd h (by simp)
          · rename_i s₂ h2
            exact ih s₂ r s' h

/-- Claim C6 witness: a single callback that completes the top-level future is
drained in FIFO order, the loop's unfolding at a not-done state matches
drain-then-flush, a done state returns its result at once, and a completed
run reports the future's recorded result. -/
theorem event_loop_drains_fifo_then_flushes_witness :
    (∃ ord, drainOrder 2 [cbDone] = some ord ∧
      (applyCb cbDone evs0).log = evs0.log ++ ord.map Ev.ran ∧
      (applyCb cbDone evs0).input = evs0.input) ∧
    (run_until_complete 1 1 evs1 = some (Except.ok none, evs1)) ∧
    (run_until_complete 1 2 evs0 =
      Option.bind (runOnceF 1 evs0.ready { evs0 with ready := [] })
        (fun s₁ => Option.bind (flushStep s₁) (run_until_complete 1 1))) ∧
    (evs1.done = some (Except.ok none)) :=
  ⟨event_loop_drains_fifo_then_flushes.1 2 [cbDone] evs0 (applyCb cbDone evs0) rfl,
   event_loop_drains_fifo_then_flushes.2.1 1 0 evs1 (Except.ok none) rfl,
   event_loop_drains_fifo_then_flushes.2.2.1 1 1 evs0 rfl,
   event_loop_drains_fifo_then_flushes.2.2.2 0 1 evs1 (Except.ok none) evs1 rfl⟩

end Goru
